import Mathlib

/-!
Verification of the chunked, parallel, resumable WebDAV range-download
engine of neo_sftp_webdav (source/clients/webdav.cpp), via a shallow
embedding of its data model and operations in Lean.

Numeric values (int64_t offsets, sizes, chunk sizes) are embedded as Nat
where the code keeps them non-negative, and as Int where configuration
values may be negative before clamping.
-/

namespace NeoSftp

/-! ### Transfer context and the range-claim operation

The shared state of one parallel transfer (WebDAVParallelContext /
WebDAVParallelSplitContext): the next-unclaimed offset cursor, the
error flag and the recorded error message.  All accesses in the code
happen under ctx->stateMutex, so each operation is atomic; traces of
the shared state are therefore modelled as sequences of these atomic
operations. -/

structure TransferCtx where
  nextOffset : Nat
  hadError : Bool
  errorMessage : String
deriving DecidableEq, Repr

/-- The range-claim critical section of WebDAVParallelWorkerThread
(webdav.cpp lines 504-517) and WebDAVParallelSplitWorkerThread (lines
722-735): under the state lock, return no range if the error flag is
set or the cursor reached the total size; otherwise claim
[start, end] with end = min(start + chunk - 1, size - 1) and advance
the cursor to end + 1. -/
def claimNext (size chunk : Nat) (c : TransferCtx) : Option (Nat × Nat) × TransferCtx :=
  if c.hadError then (none, c)
  else if size ≤ c.nextOffset then (none, c)
  else
    let start := c.nextOffset
    let e0 := start + chunk - 1
    let e := if size ≤ e0 then size - 1 else e0
    (some (start, e), { c with nextOffset := e + 1 })

/-- All ranges claimed in order, starting from cursor position off.
Fuel-based so that the kernel can evaluate it; fuel `size` is enough
because every claim advances the cursor by at least one byte. -/
def planRangesGo (size chunk : Nat) : Nat → Nat → List (Nat × Nat)
  | 0, _ => []
  | fuel + 1, off =>
    if size ≤ off then []
    else
      let e0 := off + chunk - 1
      let e := if size ≤ e0 then size - 1 else e0
      (off, e) :: planRangesGo size chunk fuel (e + 1)

/-- The full sequence of ranges claimed by the workers of one transfer
whose cursor starts at off (every range is claimed exactly once under
the lock, so the claimed sequence is the same for any interleaving). -/
def planRanges (size chunk off : Nat) : List (Nat × Nat) :=
  planRangesGo size chunk size off

/-- An offset o is covered by one of the claimed (inclusive) ranges. -/
def covers (rs : List (Nat × Nat)) (o : Nat) : Prop :=
  ∃ r ∈ rs, r.1 ≤ o ∧ o ≤ r.2

instance (rs : List (Nat × Nat)) (o : Nat) : Decidable (covers rs o) := by
  unfold covers; infer_instance

/-- Structural invariant of a claimed-range list: starting at off, the
ranges are consecutive, each non-empty and within the object. -/
def rangesFrom (size : Nat) : Nat → List (Nat × Nat) → Prop
  | off, [] => size ≤ off
  | off, (s, e) :: rest => s = off ∧ off ≤ e ∧ e < size ∧ rangesFrom size (e + 1) rest

lemma planRangesGo_rangesFrom (size chunk : Nat) (hc : 0 < chunk) :
    ∀ fuel off, size - off ≤ fuel → rangesFrom size off (planRangesGo size chunk fuel off) := by
  intro fuel
  induction fuel with
  | zero =>
    intro off h
    simp only [planRangesGo, rangesFrom]
    omega
  | succ n ih =>
    intro off h
    by_cases hlt : size ≤ off
    · simp only [planRangesGo, if_pos hlt, rangesFrom]
      exact hlt
    · simp only [planRangesGo, if_neg hlt]
      by_cases he : size ≤ off + chunk - 1
      · simp only [if_pos he, rangesFrom]
        refine ⟨by trivial, by omega, by omega, ?_⟩
        have : size - (size - 1 + 1) ≤ n := by omega
        exact ih (size - 1 + 1) this
      · simp only [if_neg he, rangesFrom]
        refine ⟨by trivial, by omega, by omega, ?_⟩
        have : size - (off + chunk - 1 + 1) ≤ n := by omega
        exact ih (off + chunk - 1 + 1) this

lemma planRanges_rangesFrom (size chunk off : Nat) (hc : 0 < chunk) :
    rangesFrom size off (planRanges size chunk off) :=
  planRangesGo_rangesFrom size chunk hc size off (by omega)

lemma rangesFrom_bounds {size : Nat} :
    ∀ {off rs}, rangesFrom size off rs → ∀ r ∈ rs, off ≤ r.1 ∧ r.1 ≤ r.2 ∧ r.2 < size := by
  intro off rs
  induction rs generalizing off with
  | nil => intro _ r hr; cases hr
  | cons a rest ih =>
    intro h r hr
    obtain ⟨hs, hoe, hes, hrest⟩ := h
    cases hr with
    | head => exact ⟨by omega, by omega, hes⟩
    | tail _ hmem =>
      have := ih hrest r hmem
      exact ⟨by omega, this.2.1, this.2.2⟩

lemma rangesFrom_pairwise {size : Nat} :
    ∀ {off rs}, rangesFrom size off rs → rs.Pairwise (fun a b => a.2 < b.1) := by
  intro off rs
  induction rs generalizing off with
  | nil => intro _; exact List.Pairwise.nil
  | cons a rest ih =>
    intro h
    obtain ⟨hs, hoe, hes, hrest⟩ := h
    refine List.Pairwise.cons ?_ (ih hrest)
    intro r hr
    have := rangesFrom_bounds hrest r hr
    omega

lemma rangesFrom_covers {size : Nat} :
    ∀ {off rs}, rangesFrom size off rs → ∀ o, covers rs o ↔ off ≤ o ∧ o < size := by
  intro off rs
  induction rs generalizing off with
  | nil =>
    intro h o
    simp only [rangesFrom] at h
    constructor
    · rintro ⟨_, ⟨⟩, _⟩
    · intro ho; omega
  | cons a rest ih =>
    intro h o
    obtain ⟨hs, hoe, hes, hrest⟩ := h
    have hrec := ih hrest o
    constructor
    · rintro ⟨r, hr, h1, h2⟩
      cases hr with
      | head => subst hs; exact ⟨by omega, by omega⟩
      | tail _ hmem =>
        have := hrec.mp ⟨r, hmem, h1, h2⟩
        exact ⟨by omega, this.2⟩
    · intro ho
      by_cases hcase : o ≤ a.2
      · exact ⟨a, List.mem_cons_self a rest, by omega, hcase⟩
      · obtain ⟨r, hmem, h1, h2⟩ := hrec.mpr (by omega)
        exact ⟨r, List.mem_cons_of_mem a hmem, h1, h2⟩

example : planRanges 10 4 5 = [(5, 8), (9, 9)] := by decide
example : planRanges 10 4 0 = [(0, 3), (4, 7), (8, 9)] := by decide

/-- C1: each invocation of the range-claim operation (performed under the
shared state lock) returns no range when the next-unclaimed offset is at
or past the total size S or the error state is set; otherwise it returns
the range [offset, min(offset + C - 1, S - 1)] and advances the
next-unclaimed offset to end + 1.  Consequently the claimed ranges are
pairwise non-overlapping, claimed in strictly increasing offset order,
and their union is exactly [R, S) for starting offset R. -/
theorem claim1_range_claim_correct (S C R : Nat) (hS : 0 < S) (hC : 0 < C) :
    (∀ c : TransferCtx, (c.hadError = true ∨ S ≤ c.nextOffset) → claimNext S C c = (none, c)) ∧
    (∀ c : TransferCtx, c.hadError = false → c.nextOffset < S →
        claimNext S C c =
          (some (c.nextOffset, min (c.nextOffset + C - 1) (S - 1)),
            { c with nextOffset := min (c.nextOffset + C - 1) (S - 1) + 1 })) ∧
    (planRanges S C R).Pairwise (fun a b => a.2 < b.1) ∧
    (planRanges S C R).Pairwise (fun a b => a.1 < b.1) ∧
    (∀ o : Nat, covers (planRanges S C R) o ↔ R ≤ o ∧ o < S) := by
  have hplan := planRanges_rangesFrom S C R hC
  refine ⟨?_, ?_, ?_, ?_, rangesFrom_covers hplan⟩
  · intro c h
    rcases h with h | h
    · simp [claimNext, h]
    · by_cases hE : c.hadError
      · simp [claimNext, hE]
      · simp [claimNext, hE, h]
  · intro c hE hlt
    have h1 : ¬ S ≤ c.nextOffset := by omega
    have h2 : (if S ≤ c.nextOffset + C - 1 then S - 1 else c.nextOffset + C - 1)
        = min (c.nextOffset + C - 1) (S - 1) := by
      split <;> omega
    simp only [claimNext, hE, Bool.false_eq_true, if_false, if_neg h1]
    rw [h2]
  · exact rangesFrom_pairwise hplan
  · refine List.Pairwise.imp_of_mem ?_ (rangesFrom_pairwise hplan)
    intro a b ha hb hab
    have := rangesFrom_bounds hplan a ha
    omega

theorem claim1_witness :
    0 < 10 ∧ 0 < 4 ∧ (∀ o : Nat, covers (planRanges 10 4 5) o ↔ 5 ≤ o ∧ o < 10) :=
  ⟨by decide, by decide, (claim1_range_claim_correct 10 4 5 (by decide) (by decide)).2.2.2.2⟩

/-! ### Shared error state (first-writer-wins)

Every worker that hits a terminal condition runs the same critical
section under ctx->stateMutex (webdav.cpp lines 557-565, 775-784):
if (!ctx->hadError) then hadError = true and errorMessage = its message.
Since both the claim and the report operations run under the one state
mutex, any concurrent execution is equivalent to some sequential trace
of these atomic operations. -/

/-- The record-terminal-error critical section of the worker threads:
first-writer-wins on the shared error state. -/
def reportError (msg : String) (c : TransferCtx) : TransferCtx :=
  if c.hadError then c else { c with hadError := true, errorMessage := msg }

/-- The two operations that touch the shared transfer state. -/
inductive TransferOp where
  | claimRange : TransferOp
  | reportError : String → TransferOp
deriving DecidableEq, Repr

def applyOp (size chunk : Nat) (c : TransferCtx) : TransferOp → TransferCtx
  | TransferOp.claimRange => (claimNext size chunk c).2
  | TransferOp.reportError m => reportError m c

/-- Run a serialized trace of atomic state operations. -/
def runOps (size chunk : Nat) (c : TransferCtx) (ops : List TransferOp) : TransferCtx :=
  ops.foldl (applyOp size chunk) c

/-- The message of the first error-report operation in a trace. -/
def firstError : List TransferOp → Option String
  | [] => none
  | TransferOp.claimRange :: rest => firstError rest
  | TransferOp.reportError m :: _ => some m

lemma claimNext_of_hadError {size chunk : Nat} {c : TransferCtx} (h : c.hadError = true) :
    claimNext size chunk c = (none, c) := by
  simp [claimNext, h]

lemma applyOp_of_hadError {size chunk : Nat} {c : TransferCtx} (h : c.hadError = true) :
    ∀ op, applyOp size chunk c op = c := by
  intro op
  cases op with
  | claimRange => simp [applyOp, claimNext_of_hadError h]
  | reportError m => simp [applyOp, reportError, h]

lemma runOps_of_hadError {size chunk : Nat} {c : TransferCtx} (h : c.hadError = true) :
    ∀ ops, runOps size chunk c ops = c := by
  intro ops
  induction ops with
  | nil => rfl
  | cons op rest ih =>
    show runOps size chunk (applyOp size chunk c op) rest = c
    rw [applyOp_of_hadError h op]
    exact ih

lemma claimNext_snd_fields (size chunk : Nat) (c : TransferCtx) :
    ((claimNext size chunk c).2).hadError = c.hadError ∧
      ((claimNext size chunk c).2).errorMessage = c.errorMessage := by
  by_cases hE : c.hadError
  · simp [claimNext, hE]
  · by_cases hS : size ≤ c.nextOffset
    · simp [claimNext, hE, hS]
    · simp [claimNext, hE, hS]

/-- C7: in any serialized trace of the atomic state operations, the error
state is recorded exactly once: the final error flag is set iff some
worker reported an error, the stored message is the first reported one
(later reports never overwrite it), a claim attempt on a context whose
error state is set returns no range and leaves the state unchanged, and
a later report likewise leaves the state unchanged. -/
theorem claim7_error_state_first_writer_wins (size chunk : Nat) (c : TransferCtx)
    (ops : List TransferOp) (h : c.hadError = false) :
    ((runOps size chunk c ops).hadError = (firstError ops).isSome) ∧
    (∀ m, firstError ops = some m → (runOps size chunk c ops).errorMessage = m) ∧
    (∀ c2 : TransferCtx, c2.hadError = true → claimNext size chunk c2 = (none, c2)) ∧
    (∀ (m : String) (c2 : TransferCtx), c2.hadError = true → reportError m c2 = c2) := by
  refine ⟨?_, ?_, fun c2 h2 => claimNext_of_hadError h2, fun m c2 h2 => by simp [reportError, h2]⟩
  · induction ops generalizing c with
    | nil => simpa [runOps, firstError] using h
    | cons op rest ih =>
      cases op with
      | claimRange =>
        show (runOps size chunk (applyOp size chunk c TransferOp.claimRange) rest).hadError = _
        have hf := (claimNext_snd_fields size chunk c).1
        simp only [applyOp, firstError]
        exact ih _ (by rw [hf]; exact h)
      | reportError m =>
        show (runOps size chunk (applyOp size chunk c (TransferOp.reportError m)) rest).hadError = _
        simp only [applyOp, reportError, h, if_false, Bool.false_eq_true]
        rw [runOps_of_hadError rfl]
        rfl
  · induction ops generalizing c with
    | nil => intro m hm; cases hm
    | cons op rest ih =>
      cases op with
      | claimRange =>
        intro m hm
        show (runOps size chunk (applyOp size chunk c TransferOp.claimRange) rest).errorMessage = m
        have hf := (claimNext_snd_fields size chunk c).1
        exact ih _ (by rw [show applyOp size chunk c TransferOp.claimRange
          = (claimNext size chunk c).2 from rfl, hf]; exact h) m hm
      | reportError m0 =>
        intro m hm
        have hm0 : m0 = m := by
          simpa [firstError] using hm
        show (runOps size chunk (applyOp size chunk c (TransferOp.reportError m0)) rest).errorMessage = m
        simp only [applyOp, reportError, h, if_false, Bool.false_eq_true]
        rw [runOps_of_hadError rfl]
        exact hm0

theorem claim7_witness :
    (({ nextOffset := 0, hadError := false, errorMessage := "" } : TransferCtx)).hadError = false ∧
    (runOps 10 4 { nextOffset := 0, hadError := false, errorMessage := "" }
      [TransferOp.reportError "a", TransferOp.reportError "b"]).errorMessage = "a" :=
  ⟨rfl, (claim7_error_state_first_writer_wins 10 4
      { nextOffset := 0, hadError := false, errorMessage := "" }
      [TransferOp.reportError "a", TransferOp.reportError "b"] rfl).2.1 "a" rfl⟩

/-! ### Per-range retry policy inside a worker

WebDAVParallelWorkerThread (webdav.cpp lines 524-665) and
WebDAVParallelSplitWorkerThread (lines 742-905) classify each attempt
at one claimed range.  The HTTP result of an attempt is abstracted as
(ok, code, bodyEmpty): ok is the transport-level success flag of
CHTTPClient::Get, code the HTTP status (0 when none was obtained),
bodyEmpty whether the response body is empty. -/

structure FetchResult where
  ok : Bool
  code : Int
  bodyEmpty : Bool
deriving DecidableEq, Repr

inductive AttemptClass where
  | success : AttemptClass
  | retryable : AttemptClass
  | fatal : AttemptClass
deriving DecidableEq, Repr

/-- Attempt classification, translated from the worker loop: a transport
failure is retryable iff no HTTP code was obtained; a non-206 status is
retryable iff it is 5xx; a 206 with empty body is retryable; a 206 with
data is the success case. -/
def classifyAttempt (r : FetchResult) : AttemptClass :=
  if r.ok = false then
    (if r.code = 0 then AttemptClass.retryable else AttemptClass.fatal)
  else if r.code ≠ 206 then
    (if 500 ≤ r.code ∧ r.code < 600 then AttemptClass.retryable else AttemptClass.fatal)
  else if r.bodyEmpty = true then AttemptClass.retryable
  else AttemptClass.success

inductive RangeOutcome where
  | fetched : Nat → RangeOutcome
  | failed : Nat → RangeOutcome
deriving DecidableEq, Repr

/-- The per-range attempt loop (for attempt = 0 .. maxAttempts-1): a
success leaves the loop with data, a fatal outcome or a retryable
outcome on the last attempt records a terminal failure; otherwise the
same range is retried.  resp gives the result of each attempt. -/
def rangeAttemptsGo (resp : Nat → FetchResult) (maxAttempts : Nat) :
    Nat → Nat → RangeOutcome
  | 0, i => RangeOutcome.failed i
  | fuel + 1, i =>
    match classifyAttempt (resp i) with
    | AttemptClass.success => RangeOutcome.fetched i
    | AttemptClass.fatal => RangeOutcome.failed i
    | AttemptClass.retryable =>
      if i = maxAttempts - 1 then RangeOutcome.failed i
      else rangeAttemptsGo resp maxAttempts fuel (i + 1)

def rangeAttempts (resp : Nat → FetchResult) (maxAttempts : Nat) : RangeOutcome :=
  rangeAttemptsGo resp maxAttempts maxAttempts 0

lemma rangeAttemptsGo_all_retryable (resp : Nat → FetchResult) (maxA : Nat)
    (hall : ∀ j, classifyAttempt (resp j) = AttemptClass.retryable) :
    ∀ fuel i, i < maxA → maxA ≤ i + fuel →
      rangeAttemptsGo resp maxA fuel i = RangeOutcome.failed (maxA - 1) := by
  intro fuel
  induction fuel with
  | zero => intro i h1 h2; omega
  | succ n ih =>
    intro i h1 h2
    simp only [rangeAttemptsGo, hall i]
    by_cases hl : i = maxA - 1
    · simp [hl]
    · rw [if_neg hl]
      exact ih (i + 1) (by omega) (by omega)

/-- C6: within a parallel worker attempting one claimed range, a
transport-level failure with no HTTP status (code 0) is retryable, an
HTTP 5xx status is retryable, a 206 response with an empty body is
retryable — each retried up to the per-range attempt budget, after
which the worker fails — while any other non-206 status is not retried
locally: the very first such attempt makes the worker record a
terminal failure for the whole transfer. -/
theorem claim6_retry_classification :
    (∀ b : Bool, classifyAttempt ⟨false, 0, b⟩ = AttemptClass.retryable) ∧
    (∀ (s : Int) (b : Bool), 500 ≤ s → s < 600 →
        classifyAttempt ⟨true, s, b⟩ = AttemptClass.retryable) ∧
    (classifyAttempt ⟨true, 206, true⟩ = AttemptClass.retryable) ∧
    (∀ (s : Int) (b : Bool), s ≠ 206 → ¬(500 ≤ s ∧ s < 600) →
        classifyAttempt ⟨true, s, b⟩ = AttemptClass.fatal) ∧
    (∀ (resp : Nat → FetchResult) (maxA i fuel : Nat), i + 1 < maxA →
        classifyAttempt (resp i) = AttemptClass.retryable →
        rangeAttemptsGo resp maxA (fuel + 1) i = rangeAttemptsGo resp maxA fuel (i + 1)) ∧
    (∀ (resp : Nat → FetchResult) (maxA : Nat), 0 < maxA →
        (∀ j, classifyAttempt (resp j) = AttemptClass.retryable) →
        rangeAttempts resp maxA = RangeOutcome.failed (maxA - 1)) ∧
    (∀ (resp : Nat → FetchResult) (maxA : Nat), 0 < maxA →
        classifyAttempt (resp 0) = AttemptClass.fatal →
        rangeAttempts resp maxA = RangeOutcome.failed 0) := by
  refine ⟨?_, ?_, ?_, ?_, ?_, ?_, ?_⟩
  · intro b; simp [classifyAttempt]
  · intro s b h1 h2
    have hs : s ≠ 206 := by omega
    simp [classifyAttempt, hs, h1, h2]
  · simp [classifyAttempt]
  · intro s b h1 h2
    simp only [classifyAttempt]
    simp [h1, h2]
  · intro resp maxA i fuel h1 h2
    simp only [rangeAttemptsGo, h2]
    rw [if_neg (by omega)]
  · intro resp maxA h1 hall
    exact rangeAttemptsGo_all_retryable resp maxA hall maxA 0 h1 (by omega)
  · intro resp maxA h1 hfatal
    cases maxA with
    | zero => omega
    | succ n =>
      show rangeAttemptsGo resp (n + 1) (n + 1) 0 = RangeOutcome.failed 0
      simp only [rangeAttemptsGo, hfatal]

theorem claim6_witness :
    0 < 6 ∧
      rangeAttempts (fun _ => ⟨false, 0, false⟩) 6 = RangeOutcome.failed 5 :=
  ⟨by decide, claim6_retry_classification.2.2.2.2.2.1 (fun _ => ⟨false, 0, false⟩) 6
    (by decide) (fun _ => rfl)⟩

/-! ### Configuration clamps and the 256 MiB in-flight window cap

WebDAVClient::Get clamps the configured chunk size to 1..32 MiB (lines
1093-1098), the worker count to 1..16 on the split path (lines
1157-1161) and 1..32 on the direct path (lines 1264-1268), and then
shrinks the chunk so that chunk_size * parallel stays at or under
256 MiB, with a 1 MiB floor (lines 1163-1170 and 1273-1280). -/

def oneMiB : Nat := 1048576

def maxWindow : Nat := 268435456

def clampChunkMb (cfg : Int) : Nat :=
  if cfg < 1 then 1 else if 32 < cfg then 32 else cfg.toNat

def clampParallelSplit (cfg : Int) : Nat :=
  if cfg < 1 then 1 else if 16 < cfg then 16 else cfg.toNat

def clampParallelDirect (cfg : Int) : Nat :=
  if cfg < 1 then 1 else if 32 < cfg then 32 else cfg.toNat

/-- The window-cap adjustment: the worker count is untouched, the chunk
size is cut to maxWindow / parallel (floored at 1 MiB) when the
configured product exceeds the cap. -/
def applyWindowCap (chunkSize parallel : Nat) : Nat × Nat :=
  if maxWindow < chunkSize * parallel then
    (if maxWindow / parallel < oneMiB then oneMiB else maxWindow / parallel, parallel)
  else (chunkSize, parallel)

lemma applyWindowCap_spec (cs p : Nat) (hcs : oneMiB ≤ cs) (hp1 : 1 ≤ p) (hp2 : p ≤ 32) :
    (applyWindowCap cs p).1 * (applyWindowCap cs p).2 ≤ maxWindow ∧
      (applyWindowCap cs p).2 = p ∧
      (maxWindow < cs * p → (applyWindowCap cs p).1 < cs) ∧
      oneMiB ≤ (applyWindowCap cs p).1 := by
  have hmul : oneMiB * p ≤ maxWindow := by
    calc oneMiB * p ≤ oneMiB * 32 := Nat.mul_le_mul_left _ hp2
    _ ≤ maxWindow := by norm_num [oneMiB, maxWindow]
  by_cases hbig : maxWindow < cs * p
  · by_cases hfloor : maxWindow / p < oneMiB
    · have h1 : (applyWindowCap cs p).1 = oneMiB := by
        simp [applyWindowCap, hbig, hfloor]
      have h2 : (applyWindowCap cs p).2 = p := by
        simp [applyWindowCap, hbig]
      refine ⟨by rw [h1, h2]; exact hmul, h2, fun _ => ?_, by rw [h1]⟩
      rw [h1]
      have : oneMiB * p < cs * p := lt_of_le_of_lt hmul hbig
      exact lt_of_mul_lt_mul_right this (Nat.zero_le p)
    · have h1 : (applyWindowCap cs p).1 = maxWindow / p := by
        simp [applyWindowCap, hbig, hfloor]
      have h2 : (applyWindowCap cs p).2 = p := by
        simp [applyWindowCap, hbig]
      refine ⟨by rw [h1, h2]; exact Nat.div_mul_le_self _ _, h2, fun _ => ?_, ?_⟩
      · rw [h1]
        exact (Nat.div_lt_iff_lt_mul (by omega)).mpr hbig
      · rw [h1]; omega
  · have h1 : applyWindowCap cs p = (cs, p) := by
      simp [applyWindowCap, hbig]
    rw [h1]
    exact ⟨by simpa using Nat.le_of_not_lt hbig, rfl, fun hcon => absurd hcon hbig, hcs⟩

/-- C8: for every configured chunk size (clamped to 1..32 MiB) and
parallel worker count (clamped to at most 16 for the split layout and
at most 32 for the direct layout), the effective product
chunk_size * worker_count used by the transfer is at most 256 MiB; when
the configured product exceeds the cap, the chunk size is strictly
reduced (never below the 1 MiB floor) and the worker count is left
unchanged. -/
theorem claim8_window_cap (cfgChunk cfgPar : Int) :
    (1 ≤ clampChunkMb cfgChunk ∧ clampChunkMb cfgChunk ≤ 32) ∧
    (1 ≤ clampParallelSplit cfgPar ∧ clampParallelSplit cfgPar ≤ 16) ∧
    (1 ≤ clampParallelDirect cfgPar ∧ clampParallelDirect cfgPar ≤ 32) ∧
    ((applyWindowCap (clampChunkMb cfgChunk * oneMiB) (clampParallelSplit cfgPar)).1 *
        (applyWindowCap (clampChunkMb cfgChunk * oneMiB) (clampParallelSplit cfgPar)).2
          ≤ maxWindow ∧
      (applyWindowCap (clampChunkMb cfgChunk * oneMiB) (clampParallelSplit cfgPar)).2
          = clampParallelSplit cfgPar ∧
      (maxWindow < clampChunkMb cfgChunk * oneMiB * clampParallelSplit cfgPar →
        (applyWindowCap (clampChunkMb cfgChunk * oneMiB) (clampParallelSplit cfgPar)).1
          < clampChunkMb cfgChunk * oneMiB) ∧
      oneMiB ≤ (applyWindowCap (clampChunkMb cfgChunk * oneMiB) (clampParallelSplit cfgPar)).1) ∧
    ((applyWindowCap (clampChunkMb cfgChunk * oneMiB) (clampParallelDirect cfgPar)).1 *
        (applyWindowCap (clampChunkMb cfgChunk * oneMiB) (clampParallelDirect cfgPar)).2
          ≤ maxWindow ∧
      (applyWindowCap (clampChunkMb cfgChunk * oneMiB) (clampParallelDirect cfgPar)).2
          = clampParallelDirect cfgPar ∧
      (maxWindow < clampChunkMb cfgChunk * oneMiB * clampParallelDirect cfgPar →
        (applyWindowCap (clampChunkMb cfgChunk * oneMiB) (clampParallelDirect cfgPar)).1
          < clampChunkMb cfgChunk * oneMiB) ∧
      oneMiB ≤ (applyWindowCap (clampChunkMb cfgChunk * oneMiB) (clampParallelDirect cfgPar)).1) := by
  have hcm : 1 ≤ clampChunkMb cfgChunk ∧ clampChunkMb cfgChunk ≤ 32 := by
    unfold clampChunkMb
    split
    · omega
    · split <;> omega
  have hps : 1 ≤ clampParallelSplit cfgPar ∧ clampParallelSplit cfgPar ≤ 16 := by
    unfold clampParallelSplit
    split
    · omega
    · split <;> omega
  have hpd : 1 ≤ clampParallelDirect cfgPar ∧ clampParallelDirect cfgPar ≤ 32 := by
    unfold clampParallelDirect
    split
    · omega
    · split <;> omega
  have hcs : oneMiB ≤ clampChunkMb cfgChunk * oneMiB := by
    have := hcm.1
    calc oneMiB = 1 * oneMiB := (Nat.one_mul _).symm
    _ ≤ clampChunkMb cfgChunk * oneMiB := Nat.mul_le_mul_right _ this
  exact ⟨hcm, hps, hpd,
    applyWindowCap_spec _ _ hcs hps.1 (by omega),
    applyWindowCap_spec _ _ hcs hpd.1 hpd.2⟩

/-! ### The split resume probe

GetSplitLocalSize (webdav.cpp lines 323-343) stats the part files
00, 01, ... in order.  FS::GetSize (repository code outside the
provided sources; modelled from the spec: it reports a file's byte size
and a non-positive value for a missing file) of part i is sizes[i];
entries past the end of the list stand for parts that do not exist.
The loop adds each part's size to the total BEFORE testing whether the
part is short, so the first short part is included in the total. -/

def GetSplitLocalSize (partSize : Nat) (sizes : List Int) : Int :=
  match sizes with
  | [] => 0
  | sz :: rest =>
    if sz ≤ 0 then 0
    else if sz < (partSize : Int) then sz
    else sz + GetSplitLocalSize partSize rest

example : GetSplitLocalSize 4 [(4 : Int), 2] = 6 := by decide

/-- C4 counterexample: with part size 4, part 00 full (4 bytes) and
part 01 present but short (2 bytes), the probe returns 4 + 2 = 6, not
the size of part 00 only: the short tail part IS counted. -/
theorem claim4_counterexample :
    GetSplitLocalSize 4 [(4 : Int), 2] = 6 ∧ GetSplitLocalSize 4 [(4 : Int), 2] ≠ 4 := by
  decide

/-- C4 (amended): the split resume probe sums the part sizes scanning
from 00 upward, stopping at the first missing part (which contributes
nothing) or just after the first short part (which IS added to the
total); with k full parts followed by a short part of s bytes the
resume offset is k * partSize + s. -/
theorem claim4_amended_split_probe (P k : Nat) (s : Int) (rest : List Int) :
    (0 < s → s < (P : Int) →
        GetSplitLocalSize P (List.replicate k ((P : Nat) : Int) ++ s :: rest)
          = ((k * P : Nat) : Int) + s) ∧
    (GetSplitLocalSize P (List.replicate k ((P : Nat) : Int)) = ((k * P : Nat) : Int)) ∧
    (s ≤ 0 →
        GetSplitLocalSize P (List.replicate k ((P : Nat) : Int) ++ s :: rest)
          = ((k * P : Nat) : Int)) := by
  induction k with
  | zero =>
    refine ⟨?_, by simp [GetSplitLocalSize], ?_⟩
    · intro h1 h2
      simp only [List.replicate_zero, List.nil_append, GetSplitLocalSize]
      rw [if_neg (by omega), if_pos h2]
      simp
    · intro h1
      simp only [List.replicate_zero, List.nil_append, GetSplitLocalSize]
      rw [if_pos h1]
      simp
  | succ n ih =>
    by_cases hP : P = 0
    · subst hP
      refine ⟨fun h1 h2 => by omega, ?_, ?_⟩
      · simp [List.replicate_succ, GetSplitLocalSize]
      · intro h1
        simp [List.replicate_succ, GetSplitLocalSize]
    · have hPpos : (0 : Int) < (P : Int) := by
        omega
      refine ⟨?_, ?_, ?_⟩
      · intro h1 h2
        simp only [List.replicate_succ, List.cons_append, GetSplitLocalSize, List.append_eq]
        rw [if_neg (by omega), if_neg (by omega), (ih).1 h1 h2]
        push_cast
        ring
      · simp only [List.replicate_succ, GetSplitLocalSize]
        rw [if_neg (by omega), if_neg (by omega), (ih).2.1]
        push_cast
        ring
      · intro h1
        simp only [List.replicate_succ, List.cons_append, GetSplitLocalSize, List.append_eq]
        rw [if_neg (by omega), if_neg (by omega), (ih).2.2 h1]
        push_cast
        ring

theorem claim4_witness :
    (0 : Int) < 2 ∧ (2 : Int) < ((4 : Nat) : Int) ∧
      GetSplitLocalSize 4 (List.replicate 1 ((4 : Nat) : Int) ++ (2 : Int) :: [])
        = ((1 * 4 : Nat) : Int) + 2 :=
  ⟨by decide, by decide, (claim4_amended_split_probe 4 1 2 []).1 (by decide) (by decide)⟩

/-! ### The Get decision: short-circuit, resume, or full download

WebDAVClient::Get, split path (lines 1143-1152): when the probed local
split size already reaches the remote size it returns success with no
ranged request and no write.  Otherwise it dispatches to
GetRangedParallelSplit (lines 1180-1190) — whose context starts with
nextOffset = 0 (line 1596), ignoring the local split size — or to
GetRangedSequentialSplit with start_offset = local split size
(lines 1192-1198).

Direct path (lines 1238-1262): only when 0 < local size < remote size
does it resume sequentially from the local size; in every other case
(including local size equal to or larger than the remote size) it
falls through to a full download from offset 0 that reopens the file
with mode "wb", truncating it.  (The resume branch can also fall back
to a full download when the parent directory cannot be created; that
filesystem-failure path is not modelled.) -/

inductive GetAction where
  | completed : GetAction
  | resume : Nat → GetAction
  | fullDownload : GetAction
deriving DecidableEq, Repr

/-- The ranged requests issued by the split path of Get: none when the
local data is already complete (short-circuit), otherwise the ranges
claimed by the chosen strategy.  useParallel is the conjunction
wants_parallel_split && ProbeRangeSupport of lines 1180-1181. -/
def splitGetPlan (size chunk localSplit : Nat) (useParallel : Bool) :
    Option (List (Nat × Nat)) :=
  if size ≤ localSplit then none
  else if useParallel then some (planRanges size chunk 0)
  else some (planRanges size chunk localSplit)

/-- The decision of the direct (non-split) path of Get. -/
def directGetAction (size localSize : Nat) : GetAction :=
  if 0 < localSize ∧ localSize < size then GetAction.resume localSize
  else GetAction.fullDownload

/-- C5 counterexample: on the direct layout with a local file whose
size already equals the remote size (100 = 100), Get does not
short-circuit: it starts a full download from offset 0 (truncating the
local file), so the claim fails for the Direct layout. -/
theorem claim5_counterexample :
    directGetAction 100 100 = GetAction.fullDownload ∧
      directGetAction 100 100 ≠ GetAction.completed := by
  decide

/-- C5 (amended): on the split layout, a local resume offset at or
above the remote size short-circuits to success with no ranged request
(and hence no write to the persisted parts); on the direct layout there
is no such short-circuit: Get resumes sequentially exactly when
0 < local size < remote size, and otherwise — including a local file
as large as the remote object — performs a full download from offset 0. -/
theorem claim5_short_circuit (size chunk localSplit localFile : Nat) (useParallel : Bool) :
    (size ≤ localSplit → splitGetPlan size chunk localSplit useParallel = none) ∧
    (0 < localFile → localFile < size → directGetAction size localFile = GetAction.resume localFile) ∧
    (size ≤ localFile → directGetAction size localFile = GetAction.fullDownload) := by
  refine ⟨fun h => by simp [splitGetPlan, h], fun h1 h2 => ?_, fun h => ?_⟩
  · simp [directGetAction, h1, h2]
  · have : ¬(0 < localFile ∧ localFile < size) := by omega
    simp [directGetAction, this]

theorem claim5_witness :
    100 ≤ 100 ∧ splitGetPlan 100 8 100 true = none ∧
      directGetAction 100 100 = GetAction.fullDownload :=
  ⟨by decide,
    (claim5_short_circuit 100 8 100 100 true).1 (by decide),
    (claim5_short_circuit 100 8 100 100 true).2.2 (by decide)⟩

/-! ### The split sink: SplitFileWriter::write

SplitFileWriter::write (webdav.cpp lines 274-321) walks the data,
mapping the running absolute offset to part index curOffset / partSize
and position curOffset % partSize, writing
min(remaining, partSize - offsetInPart) bytes into that part with
fseeko + fwrite, then continuing into the next part.

A part file is modelled as a list of byte values; fseeko past the end
followed by fwrite produces a sparse hole that reads back as zeros, so
a positional write pads with zeros up to the seek position.  The
writer's set of part files is a function from part index to content;
bytes are Nat values. -/

/-- Positional write into a single (modelled) part file: seek to pos
(padding with zero bytes if the file is shorter) and overwrite with
data, keeping any existing bytes past the written region. -/
def fileWrite (f : List Nat) (pos : Nat) (data : List Nat) : List Nat :=
  (f.take pos ++ List.replicate (pos - f.length) 0) ++ data ++ f.drop (pos + data.length)

/-- The loop body of SplitFileWriter::write.  Fuel-based: each
iteration writes at least one byte (when the part size is positive),
so data.length fuel is enough. -/
def splitWriteGo (P : Nat) : Nat → (Nat → List Nat) → Nat → List Nat → (Nat → List Nat)
  | 0, parts, _, _ => parts
  | fuel + 1, parts, offset, data =>
    if data = [] then parts
    else if P = 0 then parts
    else
      let index := offset / P
      let offsetInPart := offset % P
      let toWrite := min data.length (P - offsetInPart)
      splitWriteGo P fuel
        (Function.update parts index (fileWrite (parts index) offsetInPart (data.take toWrite)))
        (offset + toWrite) (data.drop toWrite)

/-- SplitFileWriter::write offset data, applied to the current set of
part-file contents. -/
def splitWrite (P : Nat) (parts : Nat → List Nat) (offset : Nat) (data : List Nat) :
    Nat → List Nat :=
  splitWriteGo P data.length parts offset data

lemma fileWrite_getElem (f : List Nat) (pos : Nat) (data : List Nat) (j : Nat)
    (hj : j < data.length) :
    (fileWrite f pos data)[pos + j]? = data[j]? := by
  have hpre : (f.take pos ++ List.replicate (pos - f.length) 0).length = pos := by
    simp only [List.length_append, List.length_take, List.length_replicate]
    omega
  unfold fileWrite
  rw [List.append_assoc]
  rw [List.getElem?_append_right (by omega)]
  rw [hpre]
  rw [Nat.add_sub_cancel_left]
  rw [List.getElem?_append_left (by omega)]

lemma fileWrite_nil_zero (data : List Nat) : fileWrite [] 0 data = data := by
  simp [fileWrite]

lemma splitWriteGo_nil (P : Nat) (fuel : Nat) (parts : Nat → List Nat) (offset : Nat) :
    splitWriteGo P fuel parts offset [] = parts := by
  cases fuel with
  | zero => rfl
  | succ n => simp [splitWriteGo]

lemma splitWriteGo_lower (P : Nat) (hP : 0 < P) :
    ∀ (fuel : Nat) (parts : Nat → List Nat) (offset : Nat) (data : List Nat) (j : Nat),
      (j + 1) * P ≤ offset → splitWriteGo P fuel parts offset data j = parts j := by
  intro fuel
  induction fuel with
  | zero => intro parts offset data j _; rfl
  | succ n ih =>
    intro parts offset data j hj
    by_cases hdata : data = []
    · simp [splitWriteGo, hdata]
    · simp only [splitWriteGo, if_neg hdata, if_neg (by omega : ¬ P = 0)]
      rw [ih _ _ _ j (by omega)]
      have hidx : j + 1 ≤ offset / P := (Nat.le_div_iff_mul_le hP).mpr hj
      rw [Function.update_noteq (by omega)]

lemma splitWriteGo_place (P : Nat) (hP : 0 < P) :
    ∀ (fuel : Nat) (parts : Nat → List Nat) (offset : Nat) (data : List Nat) (k : Nat),
      data.length ≤ fuel → k < data.length →
      (splitWriteGo P fuel parts offset data ((offset + k) / P))[(offset + k) % P]?
        = data[k]? := by
  intro fuel
  induction fuel with
  | zero => intro parts offset data k h1 h2; omega
  | succ n ih =>
    intro parts offset data k h1 h2
    have hdata : ¬ data = [] := by
      intro h; subst h; simp at h2
    simp only [splitWriteGo, if_neg hdata, if_neg (by omega : ¬ P = 0)]
    set t := min data.length (P - offset % P) with ht
    have hrlt : offset % P < P := Nat.mod_lt _ hP
    have hlen1 : 1 ≤ data.length := by
      cases data with
      | nil => exact absurd rfl hdata
      | cons a l => simp
    have ht1 : 1 ≤ t := by omega
    by_cases hk : k < t
    · have h0 := Nat.div_add_mod offset P
      have hlt : offset % P + k < P := by omega
      have hdm := (Nat.div_mod_unique hP).mpr
        (⟨by omega, hlt⟩ :
          offset % P + k + P * (offset / P) = offset + k ∧ offset % P + k < P)
      rw [hdm.1, hdm.2]
      have htk : k < (data.take t).length := by
        rw [List.length_take]; omega
      by_cases hrest : data.length ≤ t
      · rw [List.drop_eq_nil_of_le hrest, splitWriteGo_nil, Function.update_same,
          fileWrite_getElem _ _ _ k htk, List.getElem?_take, if_pos hk]
      · have htP : t = P - offset % P := by omega
        have hnext : (offset / P + 1) * P ≤ offset + t := by
          have hexp : (offset / P + 1) * P = P * (offset / P) + P := by ring
          omega
        rw [splitWriteGo_lower P hP n _ _ _ _ hnext, Function.update_same,
          fileWrite_getElem _ _ _ k htk, List.getElem?_take, if_pos hk]
    · have hkd : k - t < (data.drop t).length := by
        rw [List.length_drop]; omega
      have hfuel : (data.drop t).length ≤ n := by
        rw [List.length_drop]; omega
      have hrec := ih (Function.update parts (offset / P)
          (fileWrite (parts (offset / P)) (offset % P) (data.take t)))
        (offset + t) (data.drop t) (k - t) hfuel hkd
      have heq : offset + t + (k - t) = offset + k := by omega
      rw [heq] at hrec
      rw [hrec, List.getElem?_drop]
      congr 1
      omega

lemma splitWriteGo_aligned (P : Nat) (hP : 0 < P) :
    ∀ (fuel : Nat) (parts : Nat → List Nat) (i : Nat) (data : List Nat),
      data.length ≤ fuel → (∀ j, i ≤ j → parts j = []) →
      ∀ j, i ≤ j →
        splitWriteGo P fuel parts (i * P) data j = (data.drop ((j - i) * P)).take P := by
  intro fuel
  induction fuel with
  | zero =>
    intro parts i data h1 h2 j hij
    have hdn : data = [] := List.eq_nil_of_length_eq_zero (Nat.le_zero.mp h1)
    subst hdn
    simp only [splitWriteGo]
    rw [h2 j hij]
    simp
  | succ n ih =>
    intro parts i data h1 h2 j hij
    by_cases hdata : data = []
    · subst hdata
      rw [splitWriteGo_nil, h2 j hij]
      simp
    · simp only [splitWriteGo, if_neg hdata, if_neg (by omega : ¬ P = 0)]
      rw [Nat.mul_mod_left, Nat.mul_div_cancel i hP]
      simp only [Nat.sub_zero]
      rw [h2 i (le_refl i), fileWrite_nil_zero]
      have hlen1 : 1 ≤ data.length := by
        cases data with
        | nil => exact absurd rfl hdata
        | cons a l => simp
      by_cases hlen : data.length ≤ P
      · have ht' : min data.length P = data.length := by omega
        have hdropnil : data.drop (min data.length P) = [] := by
          rw [ht']; simp
        rw [hdropnil, splitWriteGo_nil]
        by_cases hji : j = i
        · subst hji
          rw [Function.update_same, ht', Nat.sub_self]
          simp [List.take_of_length_le hlen]
        · rw [Function.update_noteq hji, h2 j hij]
          have hge : data.length ≤ (j - i) * P := by
            calc data.length ≤ P := hlen
            _ = 1 * P := (one_mul P).symm
            _ ≤ (j - i) * P := Nat.mul_le_mul_right P (by omega)
          rw [List.drop_eq_nil_of_le hge]
          simp
      · have ht' : min data.length P = P := by omega
        have hoff : i * P + min data.length P = (i + 1) * P := by
          rw [ht']; ring
        rw [hoff]
        have hparts1 : ∀ j2, i + 1 ≤ j2 →
            Function.update parts i (data.take (min data.length P)) j2 = [] := by
          intro j2 hj2
          rw [Function.update_noteq (by omega)]
          exact h2 j2 (by omega)
        have hfuel : (data.drop (min data.length P)).length ≤ n := by
          rw [List.length_drop]; omega
        by_cases hji : j = i
        · subst hji
          rw [splitWriteGo_lower P hP n _ _ _ _ (le_refl ((j + 1) * P)),
            Function.update_same, ht', Nat.sub_self]
          simp
        · have hj1 : i + 1 ≤ j := by omega
          rw [ih _ (i + 1) _ hfuel hparts1 j hj1, List.drop_drop]
          have h6 : (j - (i + 1)) * P = (j - i) * P - P := by
            rw [← Nat.sub_sub]
            exact Nat.sub_one_mul (j - i) P
          have h7 : P ≤ (j - i) * P := by
            calc P = 1 * P := (one_mul P).symm
            _ ≤ (j - i) * P := Nat.mul_le_mul_right P (by omega)
          have h8 : min data.length P + (j - (i + 1)) * P = (j - i) * P := by omega
          rw [h8]

lemma min_lastPart_mod (L P : Nat) (hP : 0 < P) (hm1 : 1 ≤ L % P) :
    min P (L - L / P * P) = L % P := by
  have hmd := Nat.div_add_mod L P
  have hmd' : L / P * P + L % P = L := by
    rw [Nat.mul_comm P (L / P)] at hmd
    exact hmd
  have hmlt : L % P < P := Nat.mod_lt _ hP
  omega

lemma ceil_div_of_mod_pos (L P : Nat) (hP : 0 < P) (hm1 : 1 ≤ L % P) :
    (L + P - 1) / P = L / P + 1 := by
  have hmd := Nat.div_add_mod L P
  have hmlt : L % P < P := Nat.mod_lt _ hP
  have hx : P * (L / P + 1) = P * (L / P) + P := by ring
  have heq : L + P - 1 = P * (L / P + 1) + (L % P - 1) := by omega
  rw [heq, Nat.mul_add_div hP,
    Nat.div_eq_of_lt (lt_of_le_of_lt (Nat.sub_le _ _) hmlt), Nat.add_zero]

lemma ceil_div_of_dvd (L P : Nat) (hP : 0 < P) (_hL : 0 < L) (hdvd : P ∣ L) :
    (L + P - 1) / P = L / P := by
  have hmd := Nat.div_add_mod L P
  have hm0 : L % P = 0 := Nat.dvd_iff_mod_eq_zero.mp hdvd
  rw [hm0, Nat.add_zero] at hmd
  have heq : L + P - 1 = P * (L / P) + (P - 1) := by
    rw [hmd]
    exact Nat.add_sub_assoc hP L
  rw [heq, Nat.mul_add_div hP, Nat.div_eq_of_lt (Nat.sub_lt hP Nat.one_pos), Nat.add_zero]

lemma min_lastPart_dvd (L P : Nat) (hP : 0 < P) (hL : 0 < L) (hdvd : P ∣ L) :
    min P (L - (L / P - 1) * P) = P := by
  have hmd := Nat.div_add_mod L P
  have hm0 : L % P = 0 := Nat.dvd_iff_mod_eq_zero.mp hdvd
  have hmd' : L / P * P + L % P = L := by
    rw [Nat.mul_comm P (L / P)] at hmd
    exact hmd
  have hq1 : 1 ≤ L / P :=
    (Nat.le_div_iff_mul_le hP).mpr (by rw [one_mul]; exact Nat.le_of_dvd hL hdvd)
  have hsub : (L / P - 1) * P = L / P * P - P := Nat.sub_one_mul _ _
  have hX : P ≤ L / P * P := by
    calc P = 1 * P := (one_mul P).symm
    _ ≤ L / P * P := Nat.mul_le_mul_right P hq1
  omega

lemma chunks_flatten (P : Nat) :
    ∀ (n : Nat) (d : List Nat),
      ((List.range n).map (fun j => (d.drop (j * P)).take P)).flatten = d.take (n * P) := by
  intro n
  induction n with
  | zero => intro d; simp
  | succ m ih =>
    intro d
    rw [List.range_succ, List.map_append, List.flatten_append, ih]
    simp only [List.map_cons, List.map_nil, List.flatten_cons, List.flatten_nil,
      List.append_nil]
    rw [← List.take_add]
    congr 1
    ring

/-- C2: SplitFileWriter::write places each byte whose absolute offset is
o into part o / P at position o mod P; writing an object of S bytes
through the sink from offset 0 yields part j with content
(bytes dropped j*P).take P, so every part except the last has length
exactly P, the last part has length S mod P (or a full P when P divides
S), and concatenating the parts in index order reproduces the original
S bytes. -/
theorem claim2_split_writer (P : Nat) (data : List Nat) (hP : 0 < P) :
    (∀ (parts : Nat → List Nat) (offset k : Nat), k < data.length →
        (splitWrite P parts offset data ((offset + k) / P))[(offset + k) % P]? = data[k]?) ∧
    (∀ j : Nat, splitWrite P (fun _ => []) 0 data j = (data.drop (j * P)).take P) ∧
    (∀ j : Nat, (splitWrite P (fun _ => []) 0 data j).length = min P (data.length - j * P)) ∧
    (∀ j : Nat, j + 1 < (data.length + P - 1) / P →
        (splitWrite P (fun _ => []) 0 data j).length = P) ∧
    (0 < data.length → ¬ P ∣ data.length →
        (splitWrite P (fun _ => []) 0 data ((data.length + P - 1) / P - 1)).length
          = data.length % P) ∧
    (0 < data.length → P ∣ data.length →
        (splitWrite P (fun _ => []) 0 data ((data.length + P - 1) / P - 1)).length = P) ∧
    ((List.range ((data.length + P - 1) / P)).map
        (fun j => splitWrite P (fun _ => []) 0 data j)).flatten = data := by
  have hchar : ∀ j : Nat,
      splitWrite P (fun _ => []) 0 data j = (data.drop (j * P)).take P := by
    intro j
    have h := splitWriteGo_aligned P hP data.length (fun _ => []) 0 data (le_refl _)
      (fun _ _ => rfl) j (Nat.zero_le j)
    simpa [splitWrite] using h
  have hlenchar : ∀ j : Nat,
      (splitWrite P (fun _ => []) 0 data j).length = min P (data.length - j * P) := by
    intro j
    rw [hchar j, List.length_take, List.length_drop]
  have hceilLB : ((data.length + P - 1) / P) * P ≤ data.length + P - 1 :=
    (Nat.le_div_iff_mul_le hP).mp (le_refl _)
  have hceilUB : data.length ≤ ((data.length + P - 1) / P) * P := by
    have h1 : (data.length + P - 1) / P < (data.length + P - 1) / P + 1 := by omega
    have h2 := (Nat.div_lt_iff_lt_mul hP).mp h1
    have h3 : ((data.length + P - 1) / P + 1) * P = ((data.length + P - 1) / P) * P + P := by
      ring
    omega
  refine ⟨?_, hchar, hlenchar, ?_, ?_, ?_, ?_⟩
  · intro parts offset k hk
    exact splitWriteGo_place P hP data.length parts offset data k (le_refl _) hk
  · intro j hj
    rw [hlenchar j]
    have hj2 : (j + 2) * P ≤ ((data.length + P - 1) / P) * P :=
      Nat.mul_le_mul_right P (by omega)
    have hexp : (j + 2) * P = j * P + 2 * P := by ring
    omega
  · intro hS hdvd
    have hm1 : 1 ≤ data.length % P :=
      Nat.pos_of_ne_zero (fun h => hdvd (Nat.dvd_iff_mod_eq_zero.mpr h))
    rw [hlenchar _, ceil_div_of_mod_pos data.length P hP hm1, Nat.add_sub_cancel]
    exact min_lastPart_mod data.length P hP hm1
  · intro hS hdvd
    rw [hlenchar _, ceil_div_of_dvd data.length P hP hS hdvd]
    exact min_lastPart_dvd data.length P hP hS hdvd
  · rw [List.map_congr_left (fun j _ => hchar j), chunks_flatten]
    exact List.take_of_length_le hceilUB

theorem claim2_witness :
    0 < 4 ∧
      ((List.range (((List.range 10).length + 4 - 1) / 4)).map
        (fun j => splitWrite 4 (fun _ => []) 0 (List.range 10) j)).flatten = List.range 10 :=
  ⟨by decide, (claim2_split_writer 4 (List.range 10) (by decide)).2.2.2.2.2.2⟩

/-- C3: with remote size 10, chunk size 4 and existing local parts
totalling 5 bytes, the parallel split strategy claims the ranges
[0,3], [4,7], [8,9] — its context starts at nextOffset = 0
(webdav.cpp line 1596), so it re-fetches every byte below the resume
offset 5 — while the sequential split strategy resumes from exactly
offset 5 with ranges [5,8], [9,9].  The claim (and the repository's
own changelog entry "Split downloads resume based on existing parts")
therefore fails for the parallel strategy: this is a code bug. -/
theorem claim3_parallel_split_ignores_resume :
    splitGetPlan 10 4 5 true = some [(0, 3), (4, 7), (8, 9)] ∧
    (∃ r ∈ [(0, 3), (4, 7), (8, 9)], r.1 < 5) ∧
    splitGetPlan 10 4 5 false = some [(5, 8), (9, 9)] := by
  decide

/-! ### Split directory naming

SanitizePathComponent (webdav.cpp lines 28-73) splits the name at the
last dot (when that dot is not the first character), keeps the
extension verbatim, replaces every byte of the base outside
[A-Za-z0-9 ()+] and '-', '_', '[', ']' by an underscore (std::isalnum
in the C locale accepts exactly the ASCII letters and digits), trims
spaces and underscores from both ends, substitutes "file" for an empty
result, and caps the base at 80 characters.  Part files are named with
std::snprintf "%02d" (lines 257-259): decimal, zero-padded to at least
two digits, starting at 00.  Strings are modelled as lists of
characters. -/

def isAlnumAscii (c : Char) : Bool :=
  ('A' ≤ c && c ≤ 'Z') || ('a' ≤ c && c ≤ 'z') || ('0' ≤ c && c ≤ '9')

def isAllowedChar (c : Char) : Bool :=
  isAlnumAscii c || c == ' ' || c == '-' || c == '_' || c == '[' || c == ']' ||
    c == '(' || c == ')' || c == '+'

def isTrimChar (c : Char) : Bool := c == ' ' || c == '_'

/-- Index of the last occurrence of c, as std::string::find_last_of. -/
def lastIndexOf (c : Char) (l : List Char) : Option Nat :=
  match l.reverse.findIdx? (fun x => x == c) with
  | none => none
  | some k => some (l.length - 1 - k)

/-- The base/extension split of the sanitizer: the extension starts at
the last dot, unless there is none or it is the first character. -/
def splitExt (l : List Char) : List Char × List Char :=
  match lastIndexOf '.' l with
  | some i => if 0 < i then (l.take i, l.drop i) else (l, [])
  | none => (l, [])

def sanitizeBase (l : List Char) : List Char :=
  l.map (fun c => if isAllowedChar c then c else '_')

def trimEnds (l : List Char) : List Char :=
  ((l.dropWhile isTrimChar).reverse.dropWhile isTrimChar).reverse

def sanCoreTrimmed (l : List Char) : List Char := trimEnds (sanitizeBase l)

def sanCoreFallback (l : List Char) : List Char :=
  if sanCoreTrimmed l = [] then ['f', 'i', 'l', 'e'] else sanCoreTrimmed l

/-- The base-name pipeline of SanitizePathComponent: replace disallowed
characters, trim, fall back to "file", cap at 80. -/
def sanCore (l : List Char) : List Char :=
  if 80 < (sanCoreFallback l).length then (sanCoreFallback l).take 80
  else sanCoreFallback l

def SanitizePathComponent (name : List Char) : List Char :=
  sanCore (splitExt name).1 ++ (splitExt name).2

/-- The naming function the claim describes, built from the claim's own
words: only replacement of disallowed characters, the 80-character cap
and extension preservation — no trimming, no empty fallback. -/
def specSanitize (name : List Char) : List Char :=
  (if 80 < (sanitizeBase (splitExt name).1).length
    then (sanitizeBase (splitExt name).1).take 80
    else sanitizeBase (splitExt name).1) ++ (splitExt name).2

/-- Part file naming, snprintf "%02d" for a non-negative index. -/
def partName (i : Nat) : List Char :=
  if i < 10 then '0' :: Nat.toDigits 10 i else Nat.toDigits 10 i

example : SanitizePathComponent ['_', 'a', '.', 'b'] = ['a', '.', 'b'] := by decide

/-- C9 counterexample: for the name "_a.b" the claim's derivation
(replace disallowed characters, cap, preserve extension) yields "_a.b"
unchanged, but the code also trims leading underscores from the base
and produces "a.b": the claim's description of the derivation is
incomplete. -/
theorem claim9_counterexample :
    SanitizePathComponent ['_', 'a', '.', 'b'] = ['a', '.', 'b'] ∧
    specSanitize ['_', 'a', '.', 'b'] = ['_', 'a', '.', 'b'] ∧
    SanitizePathComponent ['_', 'a', '.', 'b'] ≠ specSanitize ['_', 'a', '.', 'b'] := by
  decide

lemma sanitizeBase_allowed (l : List Char) :
    ∀ c ∈ sanitizeBase l, isAllowedChar c = true := by
  intro c hc
  simp only [sanitizeBase, List.mem_map] at hc
  obtain ⟨a, _, rfl⟩ := hc
  by_cases h : isAllowedChar a
  · rwa [if_pos h]
  · rw [if_neg h]
    decide

lemma trimEnds_mem (l : List Char) : ∀ c ∈ trimEnds l, c ∈ l := by
  intro c hc
  unfold trimEnds at hc
  rw [List.mem_reverse] at hc
  have h1 := (List.dropWhile_sublist (l := (l.dropWhile isTrimChar).reverse)
    (p := isTrimChar)).mem hc
  rw [List.mem_reverse] at h1
  exact (List.dropWhile_sublist (l := l) (p := isTrimChar)).mem h1

lemma sanCoreFallback_spec (l : List Char) :
    sanCoreFallback l ≠ [] ∧ ∀ c ∈ sanCoreFallback l, isAllowedChar c = true := by
  unfold sanCoreFallback
  split
  · refine ⟨by decide, ?_⟩
    intro c hc
    fin_cases hc <;> decide
  · next hnil =>
    refine ⟨hnil, ?_⟩
    intro c hc
    exact sanitizeBase_allowed l c (trimEnds_mem _ c hc)

lemma sanCore_spec (l : List Char) :
    sanCore l ≠ [] ∧ (sanCore l).length ≤ 80 ∧
      ∀ c ∈ sanCore l, isAllowedChar c = true := by
  obtain ⟨hne, hmem⟩ := sanCoreFallback_spec l
  unfold sanCore
  split
  · next hlong =>
    refine ⟨?_, ?_, ?_⟩
    · have hlen : ((sanCoreFallback l).take 80).length = 80 := by
        rw [List.length_take]; omega
      intro hcon
      rw [hcon] at hlen
      simp at hlen
    · rw [List.length_take]; omega
    · intro c hc
      exact hmem c (List.mem_of_mem_take hc)
  · next hlong =>
    exact ⟨hne, by omega, hmem⟩

/-- C9 (amended): the split directory name is the sanitized base name
followed by the unchanged extension, where the sanitized base is
obtained by replacing every character outside [A-Za-z0-9 _-()+[]] with
an underscore, then trimming leading and trailing spaces and
underscores, falling back to "file" when nothing remains, and capping
the result at 80 characters; the resulting base is always non-empty,
at most 80 characters, and made only of allowed characters.  Part
files are named by zero-padded decimal indices of width at least two,
starting at "00". -/
theorem claim9_sanitize (name : List Char) :
    (SanitizePathComponent name = sanCore (splitExt name).1 ++ (splitExt name).2) ∧
    (sanCore (splitExt name).1 ≠ []) ∧
    ((sanCore (splitExt name).1).length ≤ 80) ∧
    (∀ c ∈ sanCore (splitExt name).1, isAllowedChar c = true) ∧
    (partName 0 = ['0', '0']) ∧
    (∀ i : Nat, i < 100 → (partName i).length = 2) := by
  obtain ⟨h1, h2, h3⟩ := sanCore_spec (splitExt name).1
  refine ⟨rfl, h1, h2, h3, by decide, ?_⟩
  decide

theorem claim9_witness :
    (0 : Nat) < 100 ∧ (partName 0).length = 2 :=
  ⟨by decide, (claim9_sanitize []).2.2.2.2.2 0 (by decide)⟩

/-! ### SplitFileWriter::open and the on-disk layout

SplitFileWriter::open (webdav.cpp lines 214-234) removes a pre-existing
regular file at the base path, then creates the split directory tree
with EnsureDirectoryTree (lines 75-107), which walks the path string,
calls mkdir for every prefix ending in '/' (longer than one character)
and for the full path, ignores mkdir failures (EEXIST or otherwise)
and finally stats the path: success iff a directory is there.

The filesystem is modelled as a map from path strings to
absent/file/dir.  FS::FileExists and FS::Rm are repository code outside
the provided sources; modelled from the spec and POSIX semantics:
FileExists is true when a regular file is at the path, Rm removes a
regular file.  mkdir creates a directory only when the path is free
and the parent exists (a trailing slash is ignored, as POSIX does). -/

inductive FsKind where
  | absent : FsKind
  | file : FsKind
  | dir : FsKind
deriving DecidableEq, Repr

def stripTrailSlash (p : List Char) : List Char :=
  if p.getLast? = some '/' then p.dropLast else p

def parentPath (p : List Char) : List Char :=
  match lastIndexOf '/' p with
  | none => []
  | some 0 => ['/']
  | some i => p.take i

def mkdirFs (fs : List Char → FsKind) (p : List Char) : List Char → FsKind :=
  let q := stripTrailSlash p
  if fs q ≠ FsKind.absent then fs
  else if parentPath q = [] ∨ fs (parentPath q) = FsKind.dir then
    fun r => if r = q then FsKind.dir else fs r
  else fs

/-- The prefix walk of EnsureDirectoryTree: after appending each
character to the accumulated prefix, mkdir the prefix when the new
character is a slash and the prefix is longer than one character. -/
def mkdirPrefixes (fs : List Char → FsKind) (acc : List Char) :
    List Char → (List Char → FsKind)
  | [] => fs
  | ch :: rest =>
    mkdirPrefixes
      (if ch = '/' ∧ 1 < (acc ++ [ch]).length then mkdirFs fs (acc ++ [ch]) else fs)
      (acc ++ [ch]) rest

/-- The filesystem state after the mkdir calls of EnsureDirectoryTree:
every slash-terminated prefix, then the full path when it does not end
in a slash. -/
def ensureFs (fs : List Char → FsKind) (directory : List Char) : List Char → FsKind :=
  if directory.getLast? ≠ some '/' then mkdirFs (mkdirPrefixes fs [] directory) directory
  else mkdirPrefixes fs [] directory

def EnsureDirectoryTree (fs : List Char → FsKind) (directory : List Char) :
    (List Char → FsKind) × Bool :=
  if directory = [] ∨ directory = ['/'] then (fs, true)
  else
    (ensureFs fs directory,
      decide (ensureFs fs directory (stripTrailSlash directory) = FsKind.dir))

/-- Modelled from the spec: FS::FileExists — a regular file is at the
path (repository code outside the provided sources). -/
def FileExistsFs (fs : List Char → FsKind) (p : List Char) : Bool :=
  decide (fs p = FsKind.file)

/-- Modelled from the spec: FS::Rm — remove the regular file at the
path (repository code outside the provided sources). -/
def rmFs (fs : List Char → FsKind) (p : List Char) : List Char → FsKind :=
  if fs p = FsKind.file then fun r => if r = p then FsKind.absent else fs r else fs

/-- SplitFileWriter::open: delete a pre-existing regular file at the
base path, then create the split directory tree there. -/
def splitOpen (fs : List Char → FsKind) (basePath : List Char) :
    (List Char → FsKind) × Bool :=
  EnsureDirectoryTree
    (if FileExistsFs fs basePath then rmFs fs basePath else fs) basePath

lemma mkdirFs_not_file {fs : List Char → FsKind} {q : List Char}
    (h : fs q ≠ FsKind.file) (p : List Char) : mkdirFs fs p q ≠ FsKind.file := by
  unfold mkdirFs
  split
  · exact h
  · split
    · by_cases hq : q = stripTrailSlash p
      · simp only [hq, if_pos rfl]
        intro hcon
        cases hcon
      · simp only [if_neg hq]
        exact h
    · exact h

lemma mkdirPrefixes_not_file {q : List Char} :
    ∀ (rest : List Char) (fs : List Char → FsKind) (acc : List Char),
      fs q ≠ FsKind.file → mkdirPrefixes fs acc rest q ≠ FsKind.file := by
  intro rest
  induction rest with
  | nil => intro fs acc h; exact h
  | cons ch rest2 ih =>
    intro fs acc h
    unfold mkdirPrefixes
    apply ih
    split
    · exact mkdirFs_not_file h _
    · exact h

/-- C10: if a regular (non-directory) file already exists at the split
base path, SplitFileWriter::open removes it before creating the split
directory tree — afterwards no regular file is at the base path, so a
prior non-split partial download stored there is destroyed — and when
open succeeds, the base path is a directory. -/
theorem claim10_split_open (fs : List Char → FsKind) (base : List Char)
    (hfile : fs base = FsKind.file) (hne : base ≠ [])
    (hslash : base.getLast? ≠ some '/') :
    ((splitOpen fs base).1 base ≠ FsKind.file) ∧
    ((splitOpen fs base).2 = true → (splitOpen fs base).1 base = FsKind.dir) := by
  have hnotroot : ¬(base = [] ∨ base = ['/']) := by
    rintro (h | h)
    · exact hne h
    · rw [h] at hslash
      exact hslash rfl
  have hexists : FileExistsFs fs base = true := by
    unfold FileExistsFs
    rw [hfile]
    rfl
  have hstrip : stripTrailSlash base = base := by
    unfold stripTrailSlash
    rw [if_neg hslash]
  have hrm : rmFs fs base base = FsKind.absent := by
    unfold rmFs
    rw [if_pos hfile, if_pos rfl]
  have hbase1 : (if FileExistsFs fs base then rmFs fs base else fs) = rmFs fs base := by
    rw [hexists]
    exact if_pos rfl
  have h1 : rmFs fs base base ≠ FsKind.file := by
    rw [hrm]
    intro hcon
    cases hcon
  have h2 : ensureFs (rmFs fs base) base base ≠ FsKind.file := by
    unfold ensureFs
    rw [if_pos hslash]
    exact mkdirFs_not_file (mkdirPrefixes_not_file base (rmFs fs base) [] h1) base
  unfold splitOpen
  rw [hbase1]
  unfold EnsureDirectoryTree
  rw [if_neg hnotroot]
  constructor
  · exact h2
  · intro hok
    have hd := of_decide_eq_true hok
    rwa [hstrip] at hd

def sampleFs : List Char → FsKind :=
  fun p =>
    if p = ['/'] then FsKind.dir
    else if p = ['/', 'a'] then FsKind.file
    else FsKind.absent

example : (splitOpen sampleFs ['/', 'a']).2 = true := by decide
example : (splitOpen sampleFs ['/', 'a']).1 ['/', 'a'] = FsKind.dir := by decide

theorem claim10_witness :
    sampleFs ['/', 'a'] = FsKind.file ∧ (['/', 'a'] : List Char) ≠ [] ∧
      (['/', 'a'] : List Char).getLast? ≠ some '/' ∧
      ((splitOpen sampleFs ['/', 'a']).2 = true →
        (splitOpen sampleFs ['/', 'a']).1 ['/', 'a'] = FsKind.dir) :=
  ⟨by decide, by decide, by decide,
    (claim10_split_open sampleFs ['/', 'a'] (by decide) (by decide) (by decide)).2⟩

end NeoSftp
